import Mathlib

/-!
# Verification of the MolStandardize charge algorithms

A shallow embedding of `Code/GraphMol/MolStandardize/Charge.cpp` (RDKit
MolStandardize): the `Reionizer` (charge-correction balancing by proton
transfer between acid/base catalog sites) and the `Uncharger` (removal of
net formal charge).

External collaborators (substructure matcher, periodic table, canonical
atom ranker, implicit-valence computation) are not part of the source
file; they are modelled as explicit parameters (`Oracle`, matcher
functions) or, where a concrete executable model is needed, as
definitions modelled from the spec's description of their interface.
-/

namespace ChargeModel

/-- An atom of the molecular graph, with the fields the algorithms read and
write: atomic number, formal charge, explicit/implicit hydrogen counts,
the no-implicit-H flag and the aromaticity flag (spec §3 MolecularGraph). -/
structure Atom where
  atomicNum : Nat
  formalCharge : Int
  numExplicitHs : Nat
  numImplicitHs : Nat
  noImplicit : Bool
  isAromatic : Bool
deriving DecidableEq, Repr

/-- Kinds of bonds the modelled patterns distinguish. -/
inductive BondOrder where
  | single
  | double
  | triple
  | aromatic
deriving DecidableEq, Repr

/-- A bond between two atom indices. -/
structure Bond where
  a : Nat
  b : Nat
  order : BondOrder
deriving DecidableEq, Repr

/-- A molecule: atoms indexed by position, plus a bond list.  Neighbor
iteration order is the bond-insertion order, as in the source graph. -/
structure Mol where
  atoms : List Atom
  bonds : List Bond
deriving DecidableEq, Repr

/-- Default atom used by total index accessors (never observed under the
index-validity hypotheses of the theorems). -/
def defAtom : Atom := ⟨0, 0, 0, 0, false, false⟩

/-- `mol.getAtomWithIdx(i)` (read). -/
def getAtom (mol : Mol) (i : Nat) : Atom := mol.atoms.getD i defAtom

/-- Write back the atom at index `i`. -/
def setAtom (mol : Mol) (i : Nat) (a : Atom) : Mol :=
  { mol with atoms := mol.atoms.set i a }

/-- `Atom::getNumImplicitHs()`: the cached implicit count, forced to zero
when the no-implicit flag is set. -/
def getNumImplicitHs (a : Atom) : Nat :=
  if a.noImplicit then 0 else a.numImplicitHs

/-- `Atom::getTotalNumHs()`: explicit plus implicit hydrogens. -/
def totalNumHs (a : Atom) : Nat :=
  a.numExplicitHs + getNumImplicitHs a

/-- `MolOps::getFormalCharge(mol)`: sum of the formal charges. -/
def totalFormalCharge (mol : Mol) : Int :=
  (mol.atoms.map Atom.formalCharge).sum

/-- Neighbor indices of atom `i`, in bond-list order
(`mol.getAtomNeighbors`). -/
def neighbors (mol : Mol) (i : Nat) : List Nat :=
  mol.bonds.filterMap fun bd =>
    if bd.a = i then some bd.b else if bd.b = i then some bd.a else none

/-- External collaborators consumed through narrow contracts (spec §6):
the implicit-valence computation behind `updatePropertyCache`, the
early-atom element-class predicate, the canonical atom ranker, the
periodic table's valence list and the cached total valence. -/
structure Oracle where
  calcImplicitHs : Atom → Nat
  isEarlyAtom : Nat → Bool
  rankMolAtoms : Mol → List Nat
  valenceList : Nat → List Int
  totalValence : Atom → Int

/-- `Atom::updatePropertyCache`: refresh the cached implicit-H count;
computes zero when implicit Hs are disallowed.  Touches no other field. -/
def updateCache (orc : Oracle) (a : Atom) : Atom :=
  { a with numImplicitHs := if a.noImplicit then 0 else orc.calcImplicitHs a }

/-! ## Reionizer: catalog scans (`strongestProtonated` / `weakestIonized`) -/

/-- One forward scan step over a catalog suffix: try `h` on each element,
return the first hit together with its running position counter.  This is
the loop shared by both site-scan functions. -/
def scanGo {α β : Type} (h : α → Option β) : List α → Nat → Option (Nat × β)
  | [], _ => none
  | pr :: rest, pos =>
    match h pr with
    | some occ => some (pos, occ)
    | none => scanGo h rest (pos + 1)

/-- `Reionizer::strongestProtonated`: scan the catalog forward from rank 0
and return the first rank whose protonated pattern matches, with the
matched atom indices.  `M` is the external substructure matcher returning
the matched molecule-atom sequence of the first match, if any. -/
def strongestProtonated {Pat : Type} (M : Mol → Pat → Option (List Nat))
    (mol : Mol) (abpairs : List (Pat × Pat)) : Option (Nat × List Nat) :=
  scanGo (fun pr => M mol pr.1) abpairs 0

/-- `Reionizer::weakestIonized`: scan the catalog backward (reversed
iteration with a running position counter) and return the first rank whose
ionized pattern matches; the reported rank is `size - position - 1`, the
true catalog index. -/
def weakestIonized {Pat : Type} (M : Mol → Pat → Option (List Nat))
    (mol : Mol) (abpairs : List (Pat × Pat)) : Option (Nat × List Nat) :=
  match scanGo (fun pr => M mol pr.2) abpairs.reverse 0 with
  | some (pos, occ) => some (abpairs.length - pos - 1, occ)
  | none => none

/-- The last element of a match-occurrence vector (`occur.back()`); the
site atom is by convention the last atom of the pattern match.  Matches
are nonempty under the matcher-validity hypotheses. -/
def lastIdx (l : List Nat) : Nat := l.getLastD 0

/-! ## Reionizer: deficit-compensation phase -/

/-- One deprotonation of the deficit-compensation phase (`Charge.cpp`
lines 159–166): decrement the site atom's formal charge; if it has any
explicit hydrogens, decrement that count; refresh the cache. -/
def deprotonateAcid (orc : Oracle) (mol : Mol) (idx : Nat) : Mol :=
  let patom := getAtom mol idx
  let patom := { patom with formalCharge := patom.formalCharge - 1 }
  let patom :=
    if patom.numExplicitHs > 0 then
      { patom with numExplicitHs := patom.numExplicitHs - 1 }
    else patom
  setAtom mol idx (updateCache orc patom)

/-- The `while (charge_diff > 0)` loop of the deficit-compensation phase,
indexed by the remaining positive `charge_diff`: find the strongest
protonated site; if none, stop; otherwise deprotonate it and decrement
the outstanding difference. -/
def deficitLoop {Pat : Type} (orc : Oracle) (M : Mol → Pat → Option (List Nat))
    (abpairs : List (Pat × Pat)) : Nat → Mol → Mol
  | 0, mol => mol
  | d + 1, mol =>
    match strongestProtonated M mol abpairs with
    | none => mol
    | some (_, poccur) =>
        deficitLoop orc M abpairs d (deprotonateAcid orc mol (lastIdx poccur))

/-- The deficit-compensation phase (`Charge.cpp` lines 143–170): entered
only when the molecule's total charge after corrections is nonzero; the
inner loop runs while `charge_diff > 0`. -/
def deficitPhase {Pat : Type} (orc : Oracle) (M : Mol → Pat → Option (List Nat))
    (abpairs : List (Pat × Pat)) (mol : Mol) (chargeDiff : Int) : Mol :=
  if totalFormalCharge mol ≠ 0 then
    deficitLoop orc M abpairs chargeDiff.toNat mol
  else mol

/-! ## Reionizer: balancing phase -/

/-- The unordered acid/base atom pair inserted into the already-moved set:
the two site indices, sorted (`std::sort` of the two-element key). -/
def mkKey (a b : Nat) : Nat × Nat := if a ≤ b then (a, b) else (b, a)

/-- One proton transfer (`Charge.cpp` lines 213–241).  Acid atom `p`:
formal charge down one; explicit Hs down one exactly when there are no
implicit Hs to autoremove and at least one explicit H.  Base atom `i`:
formal charge up one; explicit Hs up one if implicit Hs are disallowed,
or the acid atom is an aromatic nitrogen/phosphorus, or the resulting
total valence is not in the periodic table's valence list. -/
def doTransfer (orc : Oracle) (mol : Mol) (p i : Nat) : Mol :=
  let patom := getAtom mol p
  let patom := { patom with formalCharge := patom.formalCharge - 1 }
  let patom :=
    if getNumImplicitHs patom = 0 ∧ patom.numExplicitHs > 0 then
      { patom with numExplicitHs := patom.numExplicitHs - 1 }
    else patom
  let patom := updateCache orc patom
  let mol := setAtom mol p patom
  let iatom := getAtom mol i
  let iatom := { iatom with formalCharge := iatom.formalCharge + 1 }
  let found := orc.totalValence iatom ∈ orc.valenceList iatom.atomicNum
  let iatom :=
    if iatom.noImplicit ∨
        ((patom.atomicNum = 7 ∨ patom.atomicNum = 15) ∧ patom.isAromatic) ∨
        ¬found then
      { iatom with numExplicitHs := iatom.numExplicitHs + 1 }
    else iatom
  setAtom mol i (updateCache orc iatom)

/-- State of the balancing loop: the molecule and the `AlreadyMovedSet`
of unordered site pairs used so far in this call. -/
structure RState where
  mol : Mol
  moved : Finset (Nat × Nat)

/-- Result of one balancing-loop iteration: the loop either stops
(returning the current molecule) or performs a transfer and continues. -/
inductive BStep where
  | done (mol : Mol)
  | step (st : RState)

/-- One iteration of the balancing `while (true)` loop (`Charge.cpp`
lines 176–248): scan for the strongest protonated and weakest ionized
sites; stop if either is missing, if the acid rank is not strictly below
the base rank, if both scans select the same atom, or if the unordered
pair was already used; otherwise record the pair and transfer a proton. -/
def balanceStep {Pat : Type} (orc : Oracle) (M : Mol → Pat → Option (List Nat))
    (abpairs : List (Pat × Pat)) (st : RState) : BStep :=
  match strongestProtonated M st.mol abpairs, weakestIonized M st.mol abpairs with
  | some (ppos, poccur), some (ipos, ioccur) =>
    if ppos < ipos then
      if lastIdx poccur = lastIdx ioccur then BStep.done st.mol
      else
        let key := mkKey (lastIdx poccur) (lastIdx ioccur)
        if key ∈ st.moved then BStep.done st.mol
        else BStep.step ⟨doTransfer orc st.mol (lastIdx poccur) (lastIdx ioccur),
                         insert key st.moved⟩
    else BStep.done st.mol
  | _, _ => BStep.done st.mol

/-- The stopping condition of the balancing loop, as a predicate on the
current state: either site scan fails, the acid's rank is not strictly
less than the base's, the two sites are the same atom, or the unordered
pair is already in the `AlreadyMovedSet`. -/
def balanceStopCond {Pat : Type} (M : Mol → Pat → Option (List Nat))
    (abpairs : List (Pat × Pat)) (st : RState) : Prop :=
  match strongestProtonated M st.mol abpairs, weakestIonized M st.mol abpairs with
  | some (ppos, poccur), some (ipos, ioccur) =>
      ¬ppos < ipos ∨ lastIdx poccur = lastIdx ioccur ∨
        mkKey (lastIdx poccur) (lastIdx ioccur) ∈ st.moved
  | _, _ => True

/-- The balancing loop with an explicit bound on the number of proton
transfers still allowed: `none` means the bound was exhausted before a
stopping condition was reached, `some` the molecule at the stop. -/
def balanceLoop {Pat : Type} (orc : Oracle) (M : Mol → Pat → Option (List Nat))
    (abpairs : List (Pat × Pat)) : Nat → RState → Option Mol
  | 0, _ => none
  | fuel + 1, st =>
    match balanceStep orc M abpairs st with
    | BStep.done mol => some mol
    | BStep.step st' => balanceLoop orc M abpairs fuel st'

/-- The unordered pairs of distinct atom indices below `n`: the universe
from which the `AlreadyMovedSet` draws its keys. -/
def validPairs (n : Nat) : Finset (Nat × Nat) :=
  (Finset.range n).biUnion fun b => (Finset.range b).image fun a => (a, b)

/-! ## Uncharger: pattern predicates

The four SMARTS patterns are data in the source (`Uncharger` constructor);
the substructure matcher itself is external.  Matching is modelled from
the spec: each pattern is a single-atom predicate (with recursive
environment conditions) over the molecular graph, and a pattern's match
list is the list of its matching atom indices in ascending order, the
deterministic order the external matcher reports for single-atom
patterns. -/

/-- A bond written without an explicit order in a pattern matches a
single or an aromatic bond. -/
def bondDefault (o : BondOrder) : Bool :=
  o = BondOrder.single ∨ o = BondOrder.aromatic

/-- Neighbors of `i` reachable over a bond satisfying `ok`, in bond-list
order. -/
def neighborsVia (mol : Mol) (i : Nat) (ok : BondOrder → Bool) : List Nat :=
  mol.bonds.filterMap fun bd =>
    if ok bd.order then
      if bd.a = i then some bd.b else if bd.b = i then some bd.a else none
    else none

/-- Modelled from the spec: `pos_h`
(`[+,+2,+3,+4;!h0;!$(*~[-]),$(*(~[-])~[-])]`) — a cation (charge one to
four) with at least one implicit (removable) hydrogen, excluded when it
is adjacent to an anion unless it is adjacent to at least two anions. -/
def posHPred (mol : Mol) (i : Nat) : Bool :=
  let a := getAtom mol i
  let anionNbrs := (neighbors mol i).filter fun j => (getAtom mol j).formalCharge = -1
  (1 ≤ a.formalCharge ∧ a.formalCharge ≤ 4) ∧ getNumImplicitHs a ≠ 0 ∧
    (anionNbrs = [] ∨ 2 ≤ anionNbrs.length)

/-- Modelled from the spec: `pos_noh` (`[+,+2,+3,+4;h0;!$(*~[-])]`) — a
cation with no implicit hydrogen and no adjacent anion
("quaternary-like"). -/
def posNoHPred (mol : Mol) (i : Nat) : Bool :=
  let a := getAtom mol i
  (1 ≤ a.formalCharge ∧ a.formalCharge ≤ 4) ∧ getNumImplicitHs a = 0 ∧
    ((neighbors mol i).filter fun j => (getAtom mol j).formalCharge = -1) = []

/-- Modelled from the spec: `neg` (`[-!$(*~[+,+2,+3,+4])]`) — an anion
not adjacent to a balancing cation. -/
def negPred (mol : Mol) (i : Nat) : Bool :=
  let a := getAtom mol i
  a.formalCharge = -1 ∧
    ((neighbors mol i).filter fun j =>
      let c := (getAtom mol j).formalCharge
      1 ≤ c ∧ c ≤ 4) = []

/-- Modelled from the spec: first `neg_acid` alternative
`$([O,S;-][C,S;+0]=[O,S])` — carboxylate, carbonate, sulfi(a)te and
thio-analogues: an O/S anion bonded to a neutral C/S carrying a double
bond to another O/S. -/
def negAcidCarboxylate (mol : Mol) (i : Nat) : Bool :=
  let a := getAtom mol i
  (a.atomicNum = 8 ∨ a.atomicNum = 16) ∧ a.formalCharge = -1 ∧
    (neighborsVia mol i bondDefault).any fun j =>
      let b := getAtom mol j
      j ≠ i ∧ (b.atomicNum = 6 ∨ b.atomicNum = 16) ∧ b.formalCharge = 0 ∧
        (neighborsVia mol j fun o => o = BondOrder.double).any fun k =>
          let c := getAtom mol k
          k ≠ i ∧ k ≠ j ∧ (c.atomicNum = 8 ∨ c.atomicNum = 16)

/-- Modelled from the spec: second `neg_acid` alternative
`$([O,S;-][N,P;+](=[O,S])[O,S;-])` — phosphi(a)te, nitrate and
thio-analogues: an O/S anion bonded to an N/P cation that carries a
double-bonded O/S and a further O/S anion. -/
def negAcidNitrate (mol : Mol) (i : Nat) : Bool :=
  let a := getAtom mol i
  (a.atomicNum = 8 ∨ a.atomicNum = 16) ∧ a.formalCharge = -1 ∧
    (neighborsVia mol i bondDefault).any fun j =>
      let b := getAtom mol j
      j ≠ i ∧ (b.atomicNum = 7 ∨ b.atomicNum = 15) ∧ b.formalCharge = 1 ∧
        (neighborsVia mol j fun o => o = BondOrder.double).any fun k =>
          let c := getAtom mol k
          k ≠ i ∧ k ≠ j ∧ (c.atomicNum = 8 ∨ c.atomicNum = 16) ∧
            (neighborsVia mol j bondDefault).any fun l =>
              let d := getAtom mol l
              l ≠ i ∧ l ≠ j ∧ l ≠ k ∧ (d.atomicNum = 8 ∨ d.atomicNum = 16) ∧
                d.formalCharge = -1

/-- Modelled from the spec: third `neg_acid` alternative
`$([O-][Cl,Br,I;+,+2,+3][O-])` — hali(a)te/perhalate: an O anion bonded
to a positively charged Cl/Br/I carrying another O anion. -/
def negAcidHalate (mol : Mol) (i : Nat) : Bool :=
  let a := getAtom mol i
  a.atomicNum = 8 ∧ a.formalCharge = -1 ∧
    (neighborsVia mol i bondDefault).any fun j =>
      let b := getAtom mol j
      j ≠ i ∧ (b.atomicNum = 17 ∨ b.atomicNum = 35 ∨ b.atomicNum = 53) ∧
        (1 ≤ b.formalCharge ∧ b.formalCharge ≤ 3) ∧
        (neighborsVia mol j bondDefault).any fun k =>
          let c := getAtom mol k
          k ≠ i ∧ k ≠ j ∧ c.atomicNum = 8 ∧ c.formalCharge = -1

/-- Aromatic-nitrogen test used by the tetrazolate ring patterns. -/
def aromN (mol : Mol) (k : Nat) : Bool :=
  (getAtom mol k).atomicNum = 7 ∧ (getAtom mol k).isAromatic

/-- Aromatic-carbon test used by the tetrazolate ring patterns. -/
def aromC (mol : Mol) (k : Nat) : Bool :=
  (getAtom mol k).atomicNum = 6 ∧ (getAtom mol k).isAromatic

/-- Ring-closure test for a five-membered aromatic ring `i-j-k-l-m-i`
with all five atoms distinct and all bonds single-or-aromatic. -/
def ring5 (mol : Mol) (i j k l m : Nat) : Bool :=
  j ≠ i ∧ k ≠ i ∧ k ≠ j ∧ l ≠ i ∧ l ≠ j ∧ l ≠ k ∧
    m ≠ i ∧ m ≠ j ∧ m ≠ k ∧ m ≠ l ∧
    (neighborsVia mol j bondDefault).contains k ∧
    (neighborsVia mol k bondDefault).contains l ∧
    (neighborsVia mol l bondDefault).contains m ∧
    (neighborsVia mol m bondDefault).contains i

/-- Modelled from the spec: tetrazolate alternatives `$([n-]1nnnc1)` and
`$([n-]1ncnn1)` — an aromatic N anion in a five-membered aromatic ring
with three further nitrogens and one carbon, in either arrangement. -/
def negAcidTetrazole (mol : Mol) (i : Nat) : Bool :=
  let a := getAtom mol i
  a.atomicNum = 7 ∧ a.isAromatic ∧ a.formalCharge = -1 ∧
    (neighborsVia mol i bondDefault).any fun j =>
      (neighborsVia mol j bondDefault).any fun k =>
        (neighborsVia mol k bondDefault).any fun l =>
          (neighborsVia mol l bondDefault).any fun m =>
            ring5 mol i j k l m ∧
              ((aromN mol j ∧ aromN mol k ∧ aromN mol l ∧ aromC mol m) ∨
               (aromN mol j ∧ aromC mol k ∧ aromN mol l ∧ aromN mol m))

/-- Modelled from the spec: `neg_acid` — conjugate bases of strong acids
(carboxylate-like, nitrate-like, halate-like, tetrazolate). -/
def negAcidPred (mol : Mol) (i : Nat) : Bool :=
  negAcidCarboxylate mol i ∨ negAcidNitrate mol i ∨ negAcidHalate mol i ∨
    negAcidTetrazole mol i

/-- Match list of `pos_h`: matching atom indices, ascending. -/
def posHMatches (mol : Mol) : List Nat :=
  (List.range mol.atoms.length).filter (posHPred mol)

/-- Match list of `pos_noh`. -/
def posNoHMatches (mol : Mol) : List Nat :=
  (List.range mol.atoms.length).filter (posNoHPred mol)

/-- Match list of `neg`. -/
def negMatches (mol : Mol) : List Nat :=
  (List.range mol.atoms.length).filter (negPred mol)

/-- Match list of `neg_acid`. -/
def negAcidMatches (mol : Mol) : List Nat :=
  (List.range mol.atoms.length).filter (negAcidPred mol)

/-! ## Uncharger: pipeline -/

/-- Uncharger configuration: `df_canonicalOrdering` (default on) and
`df_force` (force full neutralization, default off). -/
structure UnchargerCfg where
  canonicalOrdering : Bool
  force : Bool
deriving DecidableEq, Repr

/-- `q_matched`: the summed formal charge of the `pos_noh` matches
(accumulated into an unsigned counter in the source; the matched charges
are positive). -/
def qMatchedOf (mol : Mol) : Nat :=
  (((posNoHMatches mol).map fun i => (getAtom mol i).formalCharge).sum).toNat

/-- `needsNeutralization`: some quaternary-like positive charge and at
least one negative or acid match. -/
def needsNeutralization (mol : Mol) : Bool :=
  qMatchedOf mol > 0 ∧ (negMatches mol ≠ [] ∨ negAcidMatches mol ≠ [])

/-- The per-atom rank keys: canonical ranks from the external ranker when
canonical ordering is on and neutralization is needed, otherwise the
identity ranking (`std::iota`). -/
def atomRanksOf (cfg : UnchargerCfg) (orc : Oracle) (mol : Mol) : List Nat :=
  if cfg.canonicalOrdering ∧ needsNeutralization mol then orc.rankMolAtoms mol
  else List.range mol.atoms.length

/-- Insertion of a `(rank, index)` pair into a lexicographically sorted
list; `insertionSortPairs` below models `std::sort` on the pair lists
(the keys are distinct, so any comparison sort yields this result). -/
def insertPairLex (x : Nat × Nat) : List (Nat × Nat) → List (Nat × Nat)
  | [] => [x]
  | y :: ys =>
    if x.1 < y.1 ∨ (x.1 = y.1 ∧ x.2 ≤ y.2) then x :: y :: ys
    else y :: insertPairLex x ys

/-- Sort a list of `(rank, index)` pairs lexicographically. -/
def insertionSortPairs : List (Nat × Nat) → List (Nat × Nat)
  | [] => []
  | x :: xs => insertPairLex x (insertionSortPairs xs)

/-- Build one ranked match list: map each matched atom to its
`(rank, index)` pair, then sort when canonical ordering is on. -/
def rankedList (cfg : UnchargerCfg) (ranks : List Nat) (ms : List Nat) :
    List (Nat × Nat) :=
  let pairs := ms.map fun i => (ranks.getD i 0, i)
  if cfg.canonicalOrdering then insertionSortPairs pairs else pairs

/-- The ranked `neg` match list (`n_atoms`). -/
def nAtomsOf (cfg : UnchargerCfg) (orc : Oracle) (mol : Mol) : List (Nat × Nat) :=
  rankedList cfg (atomRanksOf cfg orc mol) (negMatches mol)

/-- The ranked `neg_acid` match list (`a_atoms`). -/
def aAtomsOf (cfg : UnchargerCfg) (orc : Oracle) (mol : Mol) : List (Nat × Nat) :=
  rankedList cfg (atomRanksOf cfg orc mol) (negAcidMatches mol)

/-- The first positively charged neighbor of atom `idx`, in neighbor
iteration order (the source scans neighbors and breaks at the first
positive one). -/
def firstPosNbr (mol : Mol) (idx : Nat) : Option Nat :=
  (neighbors mol idx).find? fun n => (getAtom mol n).formalCharge > 0

/-- The `skipChargeSep` marking pass (`Charge.cpp` lines 409–428): for
each acid-site atom, find its first positively charged neighbor; if that
neighbor is unmarked, mark the neighbor, otherwise mark the acid atom
itself.  `marked` is the bitset, modelled as the list of marked
indices. -/
def skipFold (mol : Mol) : List (Nat × Nat) → List Nat → List Nat
  | [], marked => marked
  | p :: rest, marked =>
    match firstPosNbr mol p.2 with
    | none => skipFold mol rest marked
    | some nbr =>
      if nbr ∈ marked then skipFold mol rest (p.2 :: marked)
      else skipFold mol rest (nbr :: marked)

/-- The merged negative-site processing list (`neg_atoms`): the `neg`
matches that are not also acid matches, followed by the acid matches not
marked by the `skipChargeSep` pass. -/
def negAtomsOf (cfg : UnchargerCfg) (orc : Oracle) (mol : Mol) : List (Nat × Nat) :=
  let nA := nAtomsOf cfg orc mol
  let aA := aAtomsOf cfg orc mol
  let skip := skipFold mol aA []
  (nA.filter fun p => ¬(aA.map Prod.snd).contains p.2) ++
    (aA.filter fun p => ¬skip.contains p.2)

/-- `neutralizeNeg`: add `hDelta` to the total hydrogen count (stored as
explicit), disable implicit hydrogens, increment the formal charge, and
refresh the cache. -/
def neutralizeNeg (orc : Oracle) (a : Atom) (hDelta : Int) : Atom :=
  let a := { a with numExplicitHs := ((totalNumHs a : Int) + hDelta).toNat }
  let a := { a with noImplicit := true }
  let a := { a with formalCharge := a.formalCharge + 1 }
  updateCache orc a

/-- `neutralizeNegIfPossible`: an early atom with no hydrogens cannot be
neutralized (`none`); otherwise neutralize with `hDelta = -1` for early
atoms and `+1` otherwise. -/
def neutralizeNegIfPossible (orc : Oracle) (mol : Mol) (idx : Nat) : Option Mol :=
  let a := getAtom mol idx
  let isEarly := orc.isEarlyAtom a.atomicNum
  let hasHs := totalNumHs a ≠ 0
  if isEarly ∧ ¬hasHs then none
  else some (setAtom mol idx (neutralizeNeg orc a (if isEarly then -1 else 1)))

/-- The negative-neutralization loop (`Charge.cpp` lines 448–456):
process the site list in order; a successful neutralization decrements
the surplus counter and the loop breaks when the counter reaches zero. -/
def negLoop (orc : Oracle) : List (Nat × Nat) → Int → Mol → Mol
  | [], _, mol => mol
  | p :: rest, surplus, mol =>
    match neutralizeNegIfPossible orc mol p.2 with
    | some mol' =>
      if surplus - 1 = 0 then mol' else negLoop orc rest (surplus - 1) mol'
    | none => negLoop orc rest surplus mol

/-- The negative-neutralization pass: the surplus starts as the size of
the site list, reduced by `q_matched` unless full neutralization is
forced; the loop runs only when the surplus is nonzero. -/
def negPass (orc : Oracle) (force : Bool) (mol : Mol) (negAtoms : List (Nat × Nat))
    (qMatched : Nat) : Mol :=
  let surplus : Int := (negAtoms.length : Int) - (if force then 0 else (qMatched : Int))
  if surplus ≠ 0 then negLoop orc negAtoms surplus mol else mol

/-- Unconditional neutralization of every neutralizable site of a list;
the behavior of `negLoop` when the stop counter can never reach zero. -/
def neutralizeAll (orc : Oracle) : List (Nat × Nat) → Mol → Mol
  | [], mol => mol
  | p :: rest, mol =>
    match neutralizeNegIfPossible orc mol p.2 with
    | some mol' => neutralizeAll orc rest mol'
    | none => neutralizeAll orc rest mol

/-- The body of the per-atom `while` loop of the positive-neutralization
pass (`Charge.cpp` lines 477–497), indexed by the number of remaining
iterations: while the atom's charge and the net charge are both positive,
decrement both; for a non-carbon, non-early atom also remove one explicit
hydrogen if available and break once the last one is removed; otherwise
add one explicit hydrogen.  The index is run at `net.toNat`: the loop
condition forces `net > 0`, and `net` drops by one each pass, so the
index reaches zero exactly when the condition has become false and the
returned state is that of the source loop. -/
def posWhileGo (orc : Oracle) : Nat → Atom → Int → Atom × Int
  | 0, a, net => (a, net)
  | fuel + 1, a, net =>
    if a.formalCharge > 0 ∧ net > 0 then
      let a1 := { a with formalCharge := a.formalCharge - 1 }
      let net1 := net - 1
      if a1.atomicNum ≠ 6 ∧ ¬orc.isEarlyAtom a1.atomicNum then
        let nExplicit := a1.numExplicitHs
        let a2 :=
          if nExplicit ≥ 1 then { a1 with numExplicitHs := nExplicit - 1 }
          else a1
        if nExplicit = 1 then (a2, net1)
        else posWhileGo orc fuel (updateCache orc a2) net1
      else
        posWhileGo orc fuel
          (updateCache orc { a1 with numExplicitHs := a1.numExplicitHs + 1 })
          net1
    else (a, net)

/-- The per-atom `while` loop, entered with its exact iteration budget. -/
def posWhile (orc : Oracle) (a : Atom) (net : Int) : Atom × Int :=
  posWhileGo orc net.toNat a net

/-- The positive-neutralization pass (`Charge.cpp` lines 464–502): for
each `pos_h`-matched atom, materialize its hydrogens as explicit and
disable implicit computation, run the charge-removal loop, and stop once
the net charge reaches zero. -/
def posPass (orc : Oracle) : List Nat → Int → Mol → Mol
  | [], _, mol => mol
  | idx :: rest, net, mol =>
    let a := getAtom mol idx
    let a := { a with numExplicitHs := totalNumHs a }
    let a := { a with noImplicit := true }
    let res := posWhile orc a net
    let mol' := setAtom mol idx res.1
    if res.2 = 0 then mol' else posPass orc rest res.2 mol'

/-- `Uncharger::unchargeInPlace` (`Charge.cpp` lines 340–503): match the
four patterns, build the ranked negative-site list with the
double-counting guard, neutralize surplus negative charge, then
neutralize cations while a positive net charge remains.  The `pos_h`
match list is taken on the input molecule, as in the source. -/
def unchargeInPlace (cfg : UnchargerCfg) (orc : Oracle) (mol : Mol) : Mol :=
  let pMatches := posHMatches mol
  let qMatched := qMatchedOf mol
  let negAtoms := negAtomsOf cfg orc mol
  let mol2 := negPass orc cfg.force mol negAtoms qMatched
  let netCharge := totalFormalCharge mol2
  if netCharge > 0 then posPass orc pMatches netCharge mol2 else mol2

/-! ## Concrete instances used to evaluate the model on closed inputs -/

/-- A concrete oracle for closed evaluations: the implicit-H computation
keeps the cached value, early atoms are the alkali/alkaline-earth/boron
group, ranking is the identity, and the valence data follows common
main-group defaults. -/
def testOracle : Oracle where
  calcImplicitHs := fun a => a.numImplicitHs
  isEarlyAtom := fun n => [3, 4, 5, 11, 12, 13, 19, 20].contains n
  rankMolAtoms := fun m => List.range m.atoms.length
  valenceList := fun n =>
    if n = 7 then [3] else if n = 8 then [2]
    else if n = 15 then [3, 5] else if n = 16 then [2, 4, 6] else [4]
  totalValence := fun a => (a.numExplicitHs : Int) + (getNumImplicitHs a : Int)

/-- The test oracle with a nontrivial (reversing) canonical ranker. -/
def revRankOracle : Oracle :=
  { testOracle with rankMolAtoms := fun m => (List.range m.atoms.length).reverse }

/-- The default configuration: canonical ordering on, forced full
neutralization off. -/
def cfgDefault : UnchargerCfg := ⟨true, false⟩

/-- A single neutral carbon atom. -/
def molNeutralC : Mol := ⟨[⟨6, 0, 0, 0, false, false⟩], []⟩

/-- A carboxylate-like anion (atom 0, `O-` bonded to a `C=O`) whose anion
oxygen is additionally bonded to a cationic nitrogen (atom 3) carrying one
implicit hydrogen.  The anion matches `neg_acid`; the cation is excluded
from `pos_h` only while its lone anion neighbor is charged. -/
def molExposedCation : Mol :=
  ⟨[⟨8, -1, 0, 0, false, false⟩,
    ⟨6, 0, 0, 0, false, false⟩,
    ⟨8, 0, 0, 0, false, false⟩,
    ⟨7, 1, 0, 1, false, false⟩],
   [⟨0, 1, BondOrder.single⟩, ⟨1, 2, BondOrder.double⟩,
    ⟨0, 3, BondOrder.single⟩]⟩

/-- Two isolated `O-` anions and nothing else: `neg` matches both, no
positive charge anywhere, so `needsNeutralization` is false. -/
def molTwoAnions : Mol :=
  ⟨[⟨8, -1, 0, 0, false, false⟩, ⟨8, -1, 0, 0, false, false⟩], []⟩

/-- Two carboxylate-like acid anions (atoms 0 and 4).  Atom 0's first
positive neighbor is the cation 3; atom 4 is bonded to both cations 7 and
3, with 7 first in its neighbor order.  Atoms 0 and 4 share the positive
neighbor 3. -/
def molSharedPosNbr : Mol :=
  ⟨[⟨8, -1, 0, 0, false, false⟩,
    ⟨6, 0, 0, 0, false, false⟩,
    ⟨8, 0, 0, 0, false, false⟩,
    ⟨7, 1, 0, 0, false, false⟩,
    ⟨8, -1, 0, 0, false, false⟩,
    ⟨6, 0, 0, 0, false, false⟩,
    ⟨8, 0, 0, 0, false, false⟩,
    ⟨15, 1, 0, 0, false, false⟩],
   [⟨0, 1, BondOrder.single⟩, ⟨1, 2, BondOrder.double⟩,
    ⟨0, 3, BondOrder.single⟩, ⟨4, 5, BondOrder.single⟩,
    ⟨5, 6, BondOrder.double⟩, ⟨4, 7, BondOrder.single⟩,
    ⟨4, 3, BondOrder.single⟩]⟩

/-- A nitrate-like anion `[O-][N+](=O)[O-]`: both charged oxygens match
`neg_acid` and share the single positive neighbor 1. -/
def molNitrate : Mol :=
  ⟨[⟨8, -1, 0, 0, false, false⟩,
    ⟨7, 1, 0, 0, false, false⟩,
    ⟨8, 0, 0, 0, false, false⟩,
    ⟨8, -1, 0, 0, false, false⟩],
   [⟨0, 1, BondOrder.single⟩, ⟨1, 2, BondOrder.double⟩,
    ⟨1, 3, BondOrder.single⟩]⟩

/-- Witness matcher for the loop theorems: pattern 0 is found at atom 0,
any other pattern at atom 1. -/
def scanMatcher : Mol → Nat → Option (List Nat) :=
  fun _ pat => if pat = 0 then some [0] else some [1]

/-- Witness catalog: two acid/base pairs. -/
def abWit : List (Nat × Nat) := [(0, 0), (1, 1)]

/-- A matcher that never reports a match (trivially satisfying the
matcher contract). -/
def noneMatcher : Mol → Nat → Option (List Nat) := fun _ _ => none

/-- Lexicographic order on `(rank, index)` pairs. -/
def pairLe (x y : Nat × Nat) : Prop :=
  x.1 < y.1 ∨ (x.1 = y.1 ∧ x.2 ≤ y.2)

/-- The rank keys as the claim describes them: canonical ranks from the
ranker whenever canonical ordering is set, the identity otherwise.  This
is the claim's version, for comparison against `atomRanksOf`, which the
code computes. -/
def claimAtomRanks (cfg : UnchargerCfg) (orc : Oracle) (mol : Mol) : List Nat :=
  if cfg.canonicalOrdering then orc.rankMolAtoms mol
  else List.range mol.atoms.length

/-- The `neg` match list ranked as the claim describes it. -/
def claimNAtoms (cfg : UnchargerCfg) (orc : Oracle) (mol : Mol) :
    List (Nat × Nat) :=
  rankedList cfg (claimAtomRanks cfg orc mol) (negMatches mol)

/-- A quaternary-like cation next to nothing, plus an isolated anion:
`pos_noh` matches atom 0 and `neg` matches atom 1, so neutralization is
needed. -/
def molQuatAnion : Mol :=
  ⟨[⟨7, 1, 0, 0, false, false⟩, ⟨8, -1, 0, 0, false, false⟩], []⟩

/-! ## List helper lemmas -/

theorem getD_set_self {α : Type} (l : List α) (i : Nat) (x d : α)
    (h : i < l.length) : (l.set i x).getD i d = x := by
  induction l generalizing i with
  | nil => simp at h
  | cons b t ih =>
    cases i with
    | zero => rfl
    | succ j => simpa using ih j (by simpa using h)

theorem getD_set_ne {α : Type} (l : List α) (i j : Nat) (x d : α)
    (h : i ≠ j) : (l.set i x).getD j d = l.getD j d := by
  induction l generalizing i j with
  | nil => simp
  | cons b t ih =>
    cases i with
    | zero =>
      cases j with
      | zero => exact absurd rfl h
      | succ j' => rfl
    | succ i' =>
      cases j with
      | zero => rfl
      | succ j' => simpa using ih i' j' (by omega)

theorem sum_fc_set (l : List Atom) (i : Nat) (a : Atom) (h : i < l.length) :
    ((l.set i a).map Atom.formalCharge).sum =
      (l.map Atom.formalCharge).sum - (l.getD i defAtom).formalCharge +
        a.formalCharge := by
  induction l generalizing i with
  | nil => simp at h
  | cons b t ih =>
    cases i with
    | zero =>
      simp only [List.set, List.map, List.sum_cons, List.getD_cons_zero]
      ring
    | succ j =>
      have h' : j < t.length := by simpa using h
      simp only [List.set, List.map, List.sum_cons, List.getD_cons_succ, ih j h']
      ring

/-! ## Facts about the proton transfer (balancing phase) -/

theorem getAtom_setAtom_self (mol : Mol) (i : Nat) (a : Atom)
    (h : i < mol.atoms.length) : getAtom (setAtom mol i a) i = a :=
  getD_set_self mol.atoms i a defAtom h

theorem getAtom_setAtom_ne (mol : Mol) (i j : Nat) (a : Atom)
    (h : i ≠ j) : getAtom (setAtom mol i a) j = getAtom mol j :=
  getD_set_ne mol.atoms i j a defAtom h

theorem length_setAtom (mol : Mol) (i : Nat) (a : Atom) :
    (setAtom mol i a).atoms.length = mol.atoms.length := by
  simp [setAtom]

theorem getAtom_setAtom (mol : Mol) (j k : Nat) (a : Atom) :
    getAtom (setAtom mol j a) k =
      if j = k ∧ j < mol.atoms.length then a else getAtom mol k := by
  by_cases h1 : j = k
  · subst h1
    by_cases h2 : j < mol.atoms.length
    · simpa [h2] using getAtom_setAtom_self mol j a h2
    · have : mol.atoms.set j a = mol.atoms :=
        List.set_eq_of_length_le (by omega)
      simp [h2, getAtom, setAtom, this]
  · simpa [h1] using getAtom_setAtom_ne mol j k a h1

theorem updateCache_formalCharge (orc : Oracle) (a : Atom) :
    (updateCache orc a).formalCharge = a.formalCharge := rfl

theorem updateCache_numExplicitHs (orc : Oracle) (a : Atom) :
    (updateCache orc a).numExplicitHs = a.numExplicitHs := rfl

theorem updateCache_atomicNum (orc : Oracle) (a : Atom) :
    (updateCache orc a).atomicNum = a.atomicNum := rfl

theorem updateCache_isAromatic (orc : Oracle) (a : Atom) :
    (updateCache orc a).isAromatic = a.isAromatic := rfl

theorem updateCache_noImplicit (orc : Oracle) (a : Atom) :
    (updateCache orc a).noImplicit = a.noImplicit := rfl

theorem totalFormalCharge_setAtom (mol : Mol) (i : Nat) (a : Atom)
    (h : i < mol.atoms.length) :
    totalFormalCharge (setAtom mol i a) =
      totalFormalCharge mol - (getAtom mol i).formalCharge + a.formalCharge :=
  sum_fc_set mol.atoms i a h

/-- C3: in each proton transfer of the balancing phase, the acid atom's
formal charge drops by one and its explicit-H count drops by one exactly
when it has zero implicit hydrogens and at least one explicit hydrogen;
the base atom's formal charge rises by one and its explicit-H count rises
by one exactly when the base disallows implicit hydrogens, or the acid
atom is an aromatic nitrogen or phosphorus, or the base's resulting total
valence is not in its allowed valence list. -/
theorem transfer_updates_acid_and_base (orc : Oracle) (mol : Mol) (p i : Nat)
    (hp : p < mol.atoms.length) (hi : i < mol.atoms.length) (hne : p ≠ i) :
    (getAtom (doTransfer orc mol p i) p).formalCharge =
        (getAtom mol p).formalCharge - 1 ∧
    (getAtom (doTransfer orc mol p i) p).numExplicitHs =
        (if getNumImplicitHs (getAtom mol p) = 0 ∧
            (getAtom mol p).numExplicitHs > 0
          then (getAtom mol p).numExplicitHs - 1
          else (getAtom mol p).numExplicitHs) ∧
    (getAtom (doTransfer orc mol p i) i).formalCharge =
        (getAtom mol i).formalCharge + 1 ∧
    (getAtom (doTransfer orc mol p i) i).numExplicitHs =
        (if (getAtom mol i).noImplicit ∨
            (((getAtom mol p).atomicNum = 7 ∨ (getAtom mol p).atomicNum = 15) ∧
              (getAtom mol p).isAromatic) ∨
            ¬(orc.totalValence
                { getAtom mol i with
                    formalCharge := (getAtom mol i).formalCharge + 1 } ∈
               orc.valenceList (getAtom mol i).atomicNum)
          then (getAtom mol i).numExplicitHs + 1
          else (getAtom mol i).numExplicitHs) := by
  have hips : i ≠ p := fun h => hne h.symm
  simp only [doTransfer, getAtom_setAtom, length_setAtom, hp, hi, hne, hips,
    and_true, false_and, if_false, if_true, updateCache_formalCharge,
    updateCache_numExplicitHs, updateCache_atomicNum, updateCache_isAromatic,
    updateCache_noImplicit, getNumImplicitHs,
    apply_ite Atom.formalCharge, apply_ite Atom.numExplicitHs,
    apply_ite Atom.atomicNum, apply_ite Atom.isAromatic, ite_self]

/-- Witness for the transfer-update theorem at a concrete transfer
(acid atom 0, base atom 2 of the carboxylate example). -/
theorem transfer_updates_acid_and_base_witness :
    (getAtom (doTransfer testOracle molExposedCation 0 2) 0).formalCharge =
      (getAtom molExposedCation 0).formalCharge - 1 :=
  (transfer_updates_acid_and_base testOracle molExposedCation 0 2
    (by decide) (by decide) (by decide)).1

/-- Atoms other than the acid and base site are untouched by a proton
transfer. -/
theorem doTransfer_getAtom_other (orc : Oracle) (mol : Mol) (p i k : Nat)
    (hkp : k ≠ p) (hki : k ≠ i) :
    getAtom (doTransfer orc mol p i) k = getAtom mol k := by
  have h1 : p ≠ k := fun h => hkp h.symm
  have h2 : i ≠ k := fun h => hki h.symm
  simp only [doTransfer, getAtom_setAtom, length_setAtom, h1, h2, false_and,
    if_false]

/-- The acid and base formal-charge deltas of a proton transfer. -/
theorem doTransfer_fc (orc : Oracle) (mol : Mol) (p i : Nat)
    (hp : p < mol.atoms.length) (hi : i < mol.atoms.length) (hne : p ≠ i) :
    (getAtom (doTransfer orc mol p i) p).formalCharge =
        (getAtom mol p).formalCharge - 1 ∧
    (getAtom (doTransfer orc mol p i) i).formalCharge =
        (getAtom mol i).formalCharge + 1 := by
  have hips : i ≠ p := fun h => hne h.symm
  simp only [doTransfer, getAtom_setAtom, length_setAtom, hp, hi, hne, hips,
    and_true, false_and, if_false, if_true, updateCache_formalCharge,
    apply_ite Atom.formalCharge, ite_self]

/-- A proton transfer preserves the total formal charge. -/
theorem doTransfer_total (orc : Oracle) (mol : Mol) (p i : Nat)
    (hp : p < mol.atoms.length) (hi : i < mol.atoms.length) (hne : p ≠ i) :
    totalFormalCharge (doTransfer orc mol p i) = totalFormalCharge mol := by
  have hips : i ≠ p := fun h => hne h.symm
  simp only [doTransfer]
  rw [totalFormalCharge_setAtom _ i _ (by rw [length_setAtom]; exact hi),
      totalFormalCharge_setAtom _ p _ hp]
  simp only [getAtom_setAtom, length_setAtom, hp, hi, hne, hips, and_true,
    false_and, if_false, if_true, updateCache_formalCharge,
    apply_ite Atom.formalCharge, ite_self]
  ring

/-- C9: every proton transfer of the balancing phase leaves the total
formal charge unchanged — the acid atom's charge drops by exactly one,
the base atom's rises by exactly one, and no other atom's charge is
touched. -/
theorem transfer_conserves_total_charge (orc : Oracle) (mol : Mol) (p i : Nat)
    (hp : p < mol.atoms.length) (hi : i < mol.atoms.length) (hne : p ≠ i) :
    totalFormalCharge (doTransfer orc mol p i) = totalFormalCharge mol ∧
    (getAtom (doTransfer orc mol p i) p).formalCharge =
        (getAtom mol p).formalCharge - 1 ∧
    (getAtom (doTransfer orc mol p i) i).formalCharge =
        (getAtom mol i).formalCharge + 1 ∧
    ∀ k, k ≠ p → k ≠ i →
      (getAtom (doTransfer orc mol p i) k).formalCharge =
        (getAtom mol k).formalCharge :=
  ⟨doTransfer_total orc mol p i hp hi hne,
   (doTransfer_fc orc mol p i hp hi hne).1,
   (doTransfer_fc orc mol p i hp hi hne).2,
   fun k hkp hki =>
     congrArg Atom.formalCharge (doTransfer_getAtom_other orc mol p i k hkp hki)⟩

/-- Witness for charge conservation at a concrete transfer. -/
theorem transfer_conserves_total_charge_witness :
    totalFormalCharge (doTransfer testOracle molExposedCation 0 2) =
      totalFormalCharge molExposedCation :=
  (transfer_conserves_total_charge testOracle molExposedCation 0 2
    (by decide) (by decide) (by decide)).1

/-! ## Characterization of the catalog scans -/

theorem scanGo_eq_some {α β : Type} (h : α → Option β) (l : List α)
    (k p : Nat) (b : β) :
    scanGo h l k = some (p, b) ↔
      ∃ j, p = k + j ∧ (∃ a, l[j]? = some a ∧ h a = some b) ∧
        ∀ j' < j, ∀ a, l[j']? = some a → h a = none := by
  induction l generalizing k with
  | nil => simp [scanGo]
  | cons x t ih =>
    cases hx : h x with
    | some occ =>
      simp only [scanGo, hx]
      constructor
      · intro h'
        have h1 : k = p := congrArg Prod.fst (Option.some.inj h')
        have h2 : occ = b := congrArg Prod.snd (Option.some.inj h')
        refine ⟨0, by omega, ⟨x, by simp, by rw [hx, h2]⟩, by omega⟩
      · rintro ⟨j, hp, ⟨a, ha, hab⟩, hbefore⟩
        cases j with
        | zero =>
          simp only [List.getElem?_cons_zero, Option.some.injEq] at ha
          subst ha
          rw [hx] at hab
          injection hab with hab
          subst hab
          simp [hp]
        | succ j' =>
          have := hbefore 0 (by omega) x (by simp)
          rw [hx] at this
          cases this
    | none =>
      simp only [scanGo, hx, ih (k + 1)]
      constructor
      · rintro ⟨j, hp, ⟨a, ha, hab⟩, hbefore⟩
        refine ⟨j + 1, by omega, ⟨a, by simpa using ha, hab⟩, ?_⟩
        intro j' hj' a' ha'
        cases j' with
        | zero =>
          simp only [List.getElem?_cons_zero, Option.some.injEq] at ha'
          subst ha'
          exact hx
        | succ j'' => exact hbefore j'' (by omega) a' (by simpa using ha')
      · rintro ⟨j, hp, ⟨a, ha, hab⟩, hbefore⟩
        cases j with
        | zero =>
          simp only [List.getElem?_cons_zero, Option.some.injEq] at ha
          subst ha
          rw [hx] at hab
          cases hab
        | succ j' =>
          refine ⟨j', by omega, ⟨a, by simpa using ha, hab⟩, ?_⟩
          intro j'' hj'' a' ha'
          exact hbefore (j'' + 1) (by omega) a' (by simpa using ha')

theorem scanGo_eq_none {α β : Type} (h : α → Option β) (l : List α) (k : Nat) :
    scanGo h l k = none ↔ ∀ a ∈ l, h a = none := by
  induction l generalizing k with
  | nil => simp [scanGo]
  | cons x t ih =>
    cases hx : h x with
    | some occ => simp [scanGo, hx]
    | none => simp [scanGo, hx, ih (k + 1)]

/-- Helper: what a successful backward scan means in terms of true
catalog indices. -/
theorem weakestIonized_eq_some {Pat : Type} (M : Mol → Pat → Option (List Nat))
    (mol : Mol) (ab : List (Pat × Pat)) (p : Nat) (occ : List Nat) :
    weakestIonized M mol ab = some (p, occ) ↔
      (∃ pr, ab[p]? = some pr ∧ M mol pr.2 = some occ) ∧
        ∀ q, p < q → q < ab.length → ∀ pr, ab[q]? = some pr →
          M mol pr.2 = none := by
  unfold weakestIonized
  cases hsc : scanGo (fun pr => M mol pr.2) ab.reverse 0 with
  | none =>
    rw [scanGo_eq_none] at hsc
    simp only [Option.some.injEq]
    constructor
    · rintro h; cases h
    · rintro ⟨⟨pr, hpr, hm⟩, _⟩
      rw [hsc pr (List.mem_reverse.mpr (List.getElem?_mem hpr))] at hm
      cases hm
  | some res =>
    obtain ⟨pos, occ'⟩ := res
    rw [scanGo_eq_some] at hsc
    obtain ⟨j, hj0, ⟨a, haj, ham⟩, hbefore⟩ := hsc
    have hjlen : j < ab.length := by
      have := List.getElem?_eq_some_iff.mp haj
      simpa using this.1
    subst hj0
    simp only [Option.some.injEq, Prod.mk.injEq]
    have hrev : ab.reverse[j]? = ab[ab.length - 1 - j]? :=
      List.getElem?_reverse (by simpa using hjlen)
    constructor
    · rintro ⟨hp, hocc⟩
      subst hocc
      constructor
      · refine ⟨a, ?_, ham⟩
        have hidx : p = ab.length - 1 - j := by omega
        rw [hidx, ← hrev]
        exact haj
      · intro q hq hqlen pr hpr
        have hj' : ab.length - 1 - q < j := by omega
        have : ab.reverse[ab.length - 1 - q]? = ab[q]? := by
          rw [List.getElem?_reverse (by omega)]
          congr 1
          omega
        exact hbefore (ab.length - 1 - q) hj' pr (by rw [this]; exact hpr)
    · rintro ⟨⟨pr, hpr, hm⟩, hafter⟩
      have hplen : p < ab.length := by
        have := List.getElem?_eq_some_iff.mp hpr
        exact this.1
      have hple : p ≤ ab.length - 1 - j := by
        by_contra hlt
        push_neg at hlt
        have hj' : ab.length - 1 - p < j := by omega
        have : ab.reverse[ab.length - 1 - p]? = ab[p]? := by
          rw [List.getElem?_reverse (by omega)]
          congr 1
          omega
        have := hbefore (ab.length - 1 - p) hj' pr (by rw [this]; exact hpr)
        rw [this] at hm
        cases hm
      have hpge : ab.length - 1 - j ≤ p := by
        by_contra hlt
        push_neg at hlt
        have := hafter (ab.length - 1 - j) (by omega) (by omega) a
          (by rw [← hrev]; exact haj)
        rw [this] at ham
        cases ham
      have hpeq : p = ab.length - 1 - j := by omega
      refine ⟨by omega, ?_⟩
      rw [hpeq, ← hrev] at hpr
      rw [haj] at hpr
      have : a = pr := Option.some.inj hpr
      subst this
      rw [ham] at hm
      exact Option.some.inj hm

/-- C5: `strongestProtonated` scans the catalog forward from rank 0 and
returns the first rank whose protonated pattern matches, with the matched
atoms, or `none` if none matches; `weakestIonized` scans backward from the
highest rank and returns the first rank whose ionized pattern matches,
reported as its true catalog index, or `none`.  Both are pure functions of
the molecule — they return only a rank and match and cannot mutate it. -/
theorem site_scans_first_match {Pat : Type} (M : Mol → Pat → Option (List Nat))
    (mol : Mol) (ab : List (Pat × Pat)) (p : Nat) (occ : List Nat) :
    (strongestProtonated M mol ab = some (p, occ) ↔
      (∃ pr, ab[p]? = some pr ∧ M mol pr.1 = some occ) ∧
        ∀ q, q < p → ∀ pr, ab[q]? = some pr → M mol pr.1 = none) ∧
    (strongestProtonated M mol ab = none ↔ ∀ pr ∈ ab, M mol pr.1 = none) ∧
    (weakestIonized M mol ab = some (p, occ) ↔
      (∃ pr, ab[p]? = some pr ∧ M mol pr.2 = some occ) ∧
        ∀ q, p < q → q < ab.length → ∀ pr, ab[q]? = some pr →
          M mol pr.2 = none) ∧
    (weakestIonized M mol ab = none ↔ ∀ pr ∈ ab, M mol pr.2 = none) := by
  refine ⟨?_, ?_, weakestIonized_eq_some M mol ab p occ, ?_⟩
  · unfold strongestProtonated
    rw [scanGo_eq_some]
    constructor
    · rintro ⟨j, hj, hx, hb⟩
      have hjp : j = p := by omega
      subst hjp
      exact ⟨hx, fun q hq pr hpr => hb q hq pr hpr⟩
    · rintro ⟨hx, hb⟩
      exact ⟨p, by omega, hx, fun j' hj' pr hpr => hb j' hj' pr hpr⟩
  · unfold strongestProtonated
    rw [scanGo_eq_none]
  · unfold weakestIonized
    cases hsc : scanGo (fun pr => M mol pr.2) ab.reverse 0 with
    | none =>
      rw [scanGo_eq_none] at hsc
      exact iff_of_true rfl fun pr hpr => hsc pr (List.mem_reverse.mpr hpr)
    | some res =>
      obtain ⟨pos, occ'⟩ := res
      rw [scanGo_eq_some] at hsc
      obtain ⟨j, _, ⟨a, haj, ham⟩, _⟩ := hsc
      refine iff_of_false (by simp) fun hall => ?_
      rw [hall a (List.mem_reverse.mp (List.getElem?_mem haj))] at ham
      cases ham

/-- C4: the balancing loop stops, without any error, exactly when a site
scan fails, the acid's rank is not strictly below the base's, the two
selected sites are the same atom, or the unordered pair was already used;
in every stopping case the iteration returns the current molecule
unchanged (mutations of earlier iterations are kept, nothing is rolled
back), and otherwise the iteration performs a transfer and continues. -/
theorem balance_stop_characterized {Pat : Type} (orc : Oracle)
    (M : Mol → Pat → Option (List Nat)) (ab : List (Pat × Pat))
    (st : RState) (m : Mol) :
    (balanceStep orc M ab st = BStep.done m ↔
      m = st.mol ∧ balanceStopCond M ab st) ∧
    (¬balanceStopCond M ab st →
      ∃ st', balanceStep orc M ab st = BStep.step st') := by
  unfold balanceStep balanceStopCond
  cases hsp : strongestProtonated M st.mol ab with
  | none =>
    constructor
    · constructor
      · intro h
        injection h with h
        exact ⟨h.symm, trivial⟩
      · rintro ⟨rfl, -⟩
        rfl
    · intro h
      exact absurd trivial h
  | some rp =>
    obtain ⟨pp, po⟩ := rp
    cases hwi : weakestIonized M st.mol ab with
    | none =>
      constructor
      · constructor
        · intro h
          injection h with h
          exact ⟨h.symm, trivial⟩
        · rintro ⟨rfl, -⟩
          rfl
      · intro h
        exact absurd trivial h
    | some ri =>
      obtain ⟨ip, io⟩ := ri
      simp only []
      by_cases h1 : pp < ip
      · by_cases h2 : lastIdx po = lastIdx io
        · rw [if_pos h1, if_pos h2]
          constructor
          · constructor
            · intro h
              injection h with h
              exact ⟨h.symm, Or.inr (Or.inl h2)⟩
            · rintro ⟨rfl, -⟩
              rfl
          · intro h
            exact absurd (Or.inr (Or.inl h2)) h
        · by_cases h3 : mkKey (lastIdx po) (lastIdx io) ∈ st.moved
          · rw [if_pos h1, if_neg h2, if_pos h3]
            constructor
            · constructor
              · intro h
                injection h with h
                exact ⟨h.symm, Or.inr (Or.inr h3)⟩
              · rintro ⟨rfl, -⟩
                rfl
            · intro h
              exact absurd (Or.inr (Or.inr h3)) h
          · rw [if_pos h1, if_neg h2, if_neg h3]
            constructor
            · constructor
              · intro h
                cases h
              · rintro ⟨rfl, habs⟩
                rcases habs with h | h | h
                · exact absurd h1 h
                · exact absurd h h2
                · exact absurd h h3
            · intro _
              exact ⟨_, rfl⟩
      · rw [if_neg h1]
        constructor
        · constructor
          · intro h
            injection h with h
            exact ⟨h.symm, Or.inl h1⟩
          · rintro ⟨rfl, -⟩
            rfl
        · intro h
          exact absurd (Or.inl h1) h

/-- Witness for the stop characterization: on the two-anion example with
the witness catalog, the balancing iteration performs a transfer. -/
theorem balance_stop_characterized_witness :
    ∃ st', balanceStep testOracle scanMatcher abWit ⟨molTwoAnions, ∅⟩ =
      BStep.step st' :=
  (balance_stop_characterized testOracle scanMatcher abWit ⟨molTwoAnions, ∅⟩
    molTwoAnions).2
    (by
      unfold balanceStopCond strongestProtonated weakestIonized scanGo
        scanMatcher abWit
      simp [lastIdx, mkKey])

/-! ## Termination of the balancing loop -/

theorem validPairs_mem (n x y : Nat) :
    (x, y) ∈ validPairs n ↔ x < y ∧ y < n := by
  unfold validPairs
  simp only [Finset.mem_biUnion, Finset.mem_image, Finset.mem_range,
    Prod.mk.injEq]
  constructor
  · rintro ⟨b, hb, a, ha, rfl, rfl⟩
    exact ⟨ha, hb⟩
  · rintro ⟨hxy, hyn⟩
    exact ⟨y, hyn, x, hxy, rfl, rfl⟩

theorem validPairs_card_le (n : Nat) :
    (validPairs n).card ≤ n * (n - 1) / 2 := by
  calc (validPairs n).card
      ≤ ∑ b ∈ Finset.range n, ((Finset.range b).image fun a => (a, b)).card :=
        Finset.card_biUnion_le
    _ ≤ ∑ b ∈ Finset.range n, b := by
        refine Finset.sum_le_sum fun b _ => ?_
        calc ((Finset.range b).image fun a => (a, b)).card
            ≤ (Finset.range b).card := Finset.card_image_le
          _ = b := Finset.card_range b
    _ = n * (n - 1) / 2 := Finset.sum_range_id n

theorem mkKey_mem_validPairs (a b n : Nat) (hne : a ≠ b) (ha : a < n)
    (hb : b < n) : mkKey a b ∈ validPairs n := by
  unfold mkKey
  split
  · exact (validPairs_mem n a b).mpr ⟨by omega, hb⟩
  · exact (validPairs_mem n b a).mpr ⟨by omega, ha⟩

theorem getLastD_mem (l : List Nat) (d : Nat) (h : l ≠ []) :
    l.getLastD d ∈ l := by
  cases l with
  | nil => exact absurd rfl h
  | cons x t =>
    rw [List.getLastD_cons]
    exact List.getLastD_mem_cons t x

/-- Inversion of a continuing balancing iteration. -/
theorem balanceStep_step_inv {Pat : Type} (orc : Oracle)
    (M : Mol → Pat → Option (List Nat)) (ab : List (Pat × Pat))
    (st st' : RState) (h : balanceStep orc M ab st = BStep.step st') :
    ∃ pp po ip io, strongestProtonated M st.mol ab = some (pp, po) ∧
      weakestIonized M st.mol ab = some (ip, io) ∧ pp < ip ∧
      lastIdx po ≠ lastIdx io ∧
      mkKey (lastIdx po) (lastIdx io) ∉ st.moved ∧
      st' = ⟨doTransfer orc st.mol (lastIdx po) (lastIdx io),
             insert (mkKey (lastIdx po) (lastIdx io)) st.moved⟩ := by
  unfold balanceStep at h
  cases hsp : strongestProtonated M st.mol ab with
  | none =>
    rw [hsp] at h
    cases h
  | some rp =>
    obtain ⟨pp, po⟩ := rp
    cases hwi : weakestIonized M st.mol ab with
    | none =>
      rw [hsp, hwi] at h
      cases h
    | some ri =>
      obtain ⟨ip, io⟩ := ri
      rw [hsp, hwi] at h
      simp only [] at h
      by_cases h1 : pp < ip
      · rw [if_pos h1] at h
        by_cases h2 : lastIdx po = lastIdx io
        · rw [if_pos h2] at h
          cases h
        · rw [if_neg h2] at h
          by_cases h3 : mkKey (lastIdx po) (lastIdx io) ∈ st.moved
          · rw [if_pos h3] at h
            cases h
          · rw [if_neg h3] at h
            injection h with h
            exact ⟨pp, po, ip, io, rfl, rfl, h1, h2, h3, h.symm⟩
      · rw [if_neg h1] at h
        cases h

/-- A successful strongest-protonated scan yields a match the matcher
produced on the current molecule. -/
theorem strongestProtonated_match {Pat : Type}
    (M : Mol → Pat → Option (List Nat)) (mol : Mol) (ab : List (Pat × Pat))
    (p : Nat) (occ : List Nat)
    (h : strongestProtonated M mol ab = some (p, occ)) :
    ∃ pr : Pat × Pat, M mol pr.1 = some occ := by
  unfold strongestProtonated at h
  rw [scanGo_eq_some] at h
  obtain ⟨j, _, ⟨a, _, ham⟩, _⟩ := h
  exact ⟨a, ham⟩

/-- A successful weakest-ionized scan yields a match the matcher produced
on the current molecule. -/
theorem weakestIonized_match {Pat : Type}
    (M : Mol → Pat → Option (List Nat)) (mol : Mol) (ab : List (Pat × Pat))
    (p : Nat) (occ : List Nat)
    (h : weakestIonized M mol ab = some (p, occ)) :
    ∃ pr : Pat × Pat, M mol pr.2 = some occ := by
  unfold weakestIonized at h
  cases hsc : scanGo (fun pr => M mol pr.2) ab.reverse 0 with
  | none =>
    rw [hsc] at h
    cases h
  | some res =>
    obtain ⟨pos, occ'⟩ := res
    rw [hsc] at h
    simp only [Option.some.injEq, Prod.mk.injEq] at h
    rw [scanGo_eq_some] at hsc
    obtain ⟨j, _, ⟨a, _, ham⟩, _⟩ := hsc
    exact ⟨a, h.2 ▸ ham⟩

/-- The proton transfer does not change the number of atoms. -/
theorem doTransfer_length (orc : Oracle) (mol : Mol) (p i : Nat) :
    (doTransfer orc mol p i).atoms.length = mol.atoms.length := by
  unfold doTransfer
  rw [length_setAtom, length_setAtom]

/-- Each continuing iteration of the balancing loop consumes a previously
unused unordered pair of valid atom indices; the loop therefore reaches a
stopping condition before exhausting the pair budget. -/
theorem balanceLoop_terminates {Pat : Type} (orc : Oracle)
    (M : Mol → Pat → Option (List Nat)) (ab : List (Pat × Pat)) (N : Nat)
    (hM : ∀ (m : Mol) (pat : Pat) (occ : List Nat), M m pat = some occ →
      occ ≠ [] ∧ ∀ j ∈ occ, j < m.atoms.length) :
    ∀ (fuel : Nat) (st : RState), st.mol.atoms.length = N →
      st.moved ⊆ validPairs N →
      (validPairs N).card - st.moved.card < fuel →
      balanceLoop orc M ab fuel st ≠ none := by
  intro fuel
  induction fuel with
  | zero =>
    intro st _ _ h3
    simp at h3
  | succ f ih =>
    intro st hlen hsub hcard
    cases hstep : balanceStep orc M ab st with
    | done m =>
      simp [balanceLoop, hstep]
    | step st' =>
      have hred : balanceLoop orc M ab (f + 1) st = balanceLoop orc M ab f st' := by
        simp [balanceLoop, hstep]
      rw [hred]
      obtain ⟨pp, po, ip, io, hsp, hwi, _, hne, hnotin, hst'⟩ :=
        balanceStep_step_inv orc M ab st st' hstep
      obtain ⟨prp, hmp⟩ := strongestProtonated_match M st.mol ab pp po hsp
      obtain ⟨pri, hmi⟩ := weakestIonized_match M st.mol ab ip io hwi
      obtain ⟨hpo_ne, hpo_lt⟩ := hM st.mol prp.1 po hmp
      obtain ⟨hio_ne, hio_lt⟩ := hM st.mol pri.2 io hmi
      have hpA : lastIdx po < N := by
        rw [← hlen]
        exact hpo_lt _ (getLastD_mem po 0 hpo_ne)
      have hiA : lastIdx io < N := by
        rw [← hlen]
        exact hio_lt _ (getLastD_mem io 0 hio_ne)
      have hkey : mkKey (lastIdx po) (lastIdx io) ∈ validPairs N :=
        mkKey_mem_validPairs _ _ _ hne hpA hiA
      have hlt : st.moved.card < (validPairs N).card :=
        Finset.card_lt_card
          ((Finset.ssubset_iff_of_subset hsub).mpr ⟨_, hkey, hnotin⟩)
      apply ih st'
      · rw [hst']
        simpa [doTransfer_length] using hlen
      · rw [hst']
        intro x hx
        rcases Finset.mem_insert.mp hx with rfl | hx'
        · exact hkey
        · exact hsub hx'
      · rw [hst']
        have : (insert (mkKey (lastIdx po) (lastIdx io)) st.moved).card =
            st.moved.card + 1 := Finset.card_insert_of_not_mem hnotin
        simp only [this]
        omega

/-- C1: for every molecule with `N` atoms, the balancing loop of
`reionizeInPlace` stops within at most `N*(N-1)/2` proton transfers: each
transfer inserts a fresh unordered pair of distinct atom indices into the
`AlreadyMovedSet` before mutating, so the number of transfers is bounded
by the number of unordered atom pairs.  The hypothesis states the
substructure matcher's contract: a reported match is a nonempty list of
valid atom indices. -/
theorem balancing_terminates_within_pair_bound {Pat : Type} (orc : Oracle)
    (M : Mol → Pat → Option (List Nat)) (ab : List (Pat × Pat)) (mol : Mol)
    (hM : ∀ (m : Mol) (pat : Pat) (occ : List Nat), M m pat = some occ →
      occ ≠ [] ∧ ∀ j ∈ occ, j < m.atoms.length) :
    balanceLoop orc M ab
      (mol.atoms.length * (mol.atoms.length - 1) / 2 + 1) ⟨mol, ∅⟩ ≠ none := by
  apply balanceLoop_terminates orc M ab mol.atoms.length hM
  · rfl
  · simp
  · have := validPairs_card_le mol.atoms.length
    simp only [Finset.card_empty]
    omega

/-- Witness for the termination bound with a concrete matcher, catalog
and molecule. -/
theorem balancing_terminates_witness :
    balanceLoop testOracle noneMatcher abWit
      (molTwoAnions.atoms.length * (molTwoAnions.atoms.length - 1) / 2 + 1)
      ⟨molTwoAnions, ∅⟩ ≠ none :=
  balancing_terminates_within_pair_bound testOracle noneMatcher abWit
    molTwoAnions (fun _ _ _ h => nomatch h)

/-- C6: the deficit-compensation phase runs only when the total formal
charge after corrections is nonzero and the charge difference is strictly
positive; each step finds the strongest protonated site, decrements that
atom's formal charge, decrements its explicit-H count if it has any
explicit hydrogens, and decrements the outstanding difference; the phase
ends when the difference reaches zero or no site is found. -/
theorem deficit_phase_characterized {Pat : Type} (orc : Oracle)
    (M : Mol → Pat → Option (List Nat)) (ab : List (Pat × Pat)) (mol : Mol)
    (diff : Int) :
    (totalFormalCharge mol = 0 → deficitPhase orc M ab mol diff = mol) ∧
    (diff ≤ 0 → deficitPhase orc M ab mol diff = mol) ∧
    (totalFormalCharge mol ≠ 0 →
      deficitPhase orc M ab mol diff = deficitLoop orc M ab diff.toNat mol) ∧
    (deficitLoop orc M ab 0 mol = mol) ∧
    (∀ (d : Nat) (m : Mol), deficitLoop orc M ab (d + 1) m =
      match strongestProtonated M m ab with
      | none => m
      | some (_, poccur) =>
          deficitLoop orc M ab d (deprotonateAcid orc m (lastIdx poccur))) ∧
    (∀ (m : Mol) (idx : Nat), idx < m.atoms.length →
      (getAtom (deprotonateAcid orc m idx) idx).formalCharge =
        (getAtom m idx).formalCharge - 1 ∧
      (getAtom (deprotonateAcid orc m idx) idx).numExplicitHs =
        (if (getAtom m idx).numExplicitHs > 0
          then (getAtom m idx).numExplicitHs - 1
          else (getAtom m idx).numExplicitHs)) := by
  refine ⟨?_, ?_, ?_, rfl, ?_, ?_⟩
  · intro h
    simp [deficitPhase, h]
  · intro h
    rw [deficitPhase, Int.toNat_of_nonpos h]
    split <;> rfl
  · intro h
    rw [deficitPhase, if_pos h]
  · intro d m
    rfl
  · intro m idx hidx
    simp only [deprotonateAcid, getAtom_setAtom, hidx, and_true, if_true,
      updateCache_formalCharge, updateCache_numExplicitHs,
      apply_ite Atom.formalCharge, apply_ite Atom.numExplicitHs, ite_self]

/-- Witness for the deficit-phase characterization: the phase is skipped
on a neutral molecule or a non-positive difference, enters its loop on a
charged molecule, and a concrete deprotonation decrements the site
atom's charge. -/
theorem deficit_phase_characterized_witness :
    deficitPhase testOracle noneMatcher abWit molNeutralC 5 = molNeutralC ∧
    deficitPhase testOracle noneMatcher abWit molNitrate (-1) = molNitrate ∧
    deficitPhase testOracle noneMatcher abWit molNitrate 2 =
      deficitLoop testOracle noneMatcher abWit (Int.toNat 2) molNitrate ∧
    (getAtom (deprotonateAcid testOracle molNitrate 0) 0).formalCharge =
      (getAtom molNitrate 0).formalCharge - 1 :=
  ⟨(deficit_phase_characterized testOracle noneMatcher abWit molNeutralC 5).1
      (by decide),
   (deficit_phase_characterized testOracle noneMatcher abWit molNitrate
      (-1)).2.1 (by decide),
   (deficit_phase_characterized testOracle noneMatcher abWit molNitrate
      2).2.2.1 (by decide),
   ((deficit_phase_characterized testOracle noneMatcher abWit molNitrate
      2).2.2.2.2.2 molNitrate 0 (by decide)).1⟩

/-- When the surplus counter starts negative it can never reach zero by
decrements, so the loop neutralizes every neutralizable site. -/
theorem negLoop_all_of_neg (orc : Oracle) :
    ∀ (l : List (Nat × Nat)) (s : Int) (mol : Mol), s < 0 →
      negLoop orc l s mol = neutralizeAll orc l mol := by
  intro l
  induction l with
  | nil => intro s mol _; rfl
  | cons p rest ih =>
    intro s mol hs
    rw [negLoop, neutralizeAll]
    cases hn : neutralizeNegIfPossible orc mol p.2 with
    | some mol' =>
      show (if s - 1 = 0 then mol' else negLoop orc rest (s - 1) mol') =
        neutralizeAll orc rest mol'
      rw [if_neg (by omega)]
      exact ih (s - 1) mol' (by omega)
    | none =>
      show negLoop orc rest s mol = neutralizeAll orc rest mol
      exact ih s mol hs

/-- C10: in the negative-neutralization pass with forced full
neutralization off, if `q_matched` equals the size of the negative-site
list the pass mutates nothing (the surplus is zero and the pass is
skipped), whereas if `q_matched` strictly exceeds that size the pass
neutralizes every neutralizable atom in the list, because the surplus
counter starts negative and the decrement-to-zero stop condition never
fires. -/
theorem neg_pass_surplus_behavior (orc : Oracle) (mol : Mol)
    (l : List (Nat × Nat)) (q : Nat) :
    ((q : Int) = l.length → negPass orc false mol l q = mol) ∧
    ((l.length : Int) < q → negPass orc false mol l q = neutralizeAll orc l mol) := by
  constructor
  · intro h
    rw [negPass, if_neg]
    simp only [Bool.false_eq_true, if_false, ne_eq, not_not]
    omega
  · intro h
    rw [negPass, if_pos (by simp only [Bool.false_eq_true, if_false]; omega)]
    exact negLoop_all_of_neg orc l _ mol
      (by simp only [Bool.false_eq_true, if_false]; omega)

/-- Witness for the surplus behavior: with one site and one quaternary
charge the pass is skipped, and with one site and two quaternary charges
every neutralizable site is processed. -/
theorem neg_pass_surplus_behavior_witness :
    negPass testOracle false molNitrate [(0, 0)] 1 = molNitrate ∧
    negPass testOracle false molNitrate [(0, 0)] 2 =
      neutralizeAll testOracle [(0, 0)] molNitrate :=
  ⟨(neg_pass_surplus_behavior testOracle molNitrate [(0, 0)] 1).1 (by decide),
   (neg_pass_surplus_behavior testOracle molNitrate [(0, 0)] 2).2 (by decide)⟩

/-! ## Ranking of the match lists -/

theorem mem_insertPairLex (x z : Nat × Nat) (ys : List (Nat × Nat)) :
    z ∈ insertPairLex x ys ↔ z = x ∨ z ∈ ys := by
  induction ys with
  | nil => simp [insertPairLex]
  | cons y ys ih =>
    rw [insertPairLex]
    split
    · simp [List.mem_cons]
    · simp only [List.mem_cons, ih]
      tauto

theorem insertPairLex_pairwise (x : Nat × Nat) (ys : List (Nat × Nat))
    (h : ys.Pairwise pairLe) : (insertPairLex x ys).Pairwise pairLe := by
  induction ys with
  | nil => simp [insertPairLex]
  | cons y ys ih =>
    rw [insertPairLex]
    split
    · rename_i hc
      refine List.Pairwise.cons ?_ h
      intro z hz
      rcases List.mem_cons.mp hz with rfl | hz'
      · exact hc
      · have hyz := (List.pairwise_cons.mp h).1 z hz'
        unfold pairLe at *
        omega
    · rename_i hc
      have h' := List.pairwise_cons.mp h
      refine List.Pairwise.cons ?_ (ih h'.2)
      intro z hz
      rcases (mem_insertPairLex x z ys).mp hz with rfl | hz'
      · unfold pairLe
        omega
      · exact h'.1 z hz'

theorem insertionSortPairs_pairwise (l : List (Nat × Nat)) :
    (insertionSortPairs l).Pairwise pairLe := by
  induction l with
  | nil => simp [insertionSortPairs]
  | cons x xs ih => exact insertPairLex_pairwise x _ ih

theorem getD_range_self (n i : Nat) (h : i < n) :
    (List.range n).getD i 0 = i := by
  rw [List.getD_eq_getElem?_getD, List.getElem?_range h]
  rfl

/-- Members of a match list are valid atom indices. -/
theorem mem_matches_lt (mol : Mol) (pred : Mol → Nat → Bool) (i : Nat)
    (h : i ∈ (List.range mol.atoms.length).filter (pred mol)) :
    i < mol.atoms.length :=
  List.mem_range.mp (List.mem_of_mem_filter h)

/-- With the identity ranking, the rank of an in-range index is the index
itself. -/
theorem map_rank_id (n : Nat) (l : List Nat) (hl : ∀ i ∈ l, i < n) :
    List.map (fun i => ((List.range n)[i]?.getD 0, i)) l =
      List.map (fun i => (i, i)) l := by
  apply List.map_congr_left
  intro i hi
  rw [List.getElem?_range (hl i hi)]
  rfl

/-- Counterexample to the claim: with canonical ordering set but no
quaternary-like positive charge (`needsNeutralization` false), the code
ranks by raw index (`std::iota`), not by the canonical ranks; with a
reversing ranker on the two-anion molecule the produced list differs from
the claim's canonically ranked list. -/
theorem ranking_claim_counterexample :
    cfgDefault.canonicalOrdering = true ∧
    nAtomsOf cfgDefault revRankOracle molTwoAnions = [(0, 0), (1, 1)] ∧
    claimNAtoms cfgDefault revRankOracle molTwoAnions = [(0, 1), (1, 0)] ∧
    nAtomsOf cfgDefault revRankOracle molTwoAnions ≠
      claimNAtoms cfgDefault revRankOracle molTwoAnions := by
  refine ⟨rfl, by decide, by decide, by decide⟩

/-- C7 (amended): canonical ranks are obtained from the atom ranker only
when `useCanonicalOrdering` is set *and* neutralization is needed (some
quaternary-like positive charge together with a negative or acid match);
then the lists are the `(rank, index)` pairs sorted ascending.  When the
flag is set without that condition the identity ranking is used instead
(pairs `(index, index)`, still sorted); when the flag is unset the raw
atom index is both key and order and no sort is applied. -/
theorem ranking_characterized (cfg : UnchargerCfg) (orc : Oracle) (mol : Mol) :
    (cfg.canonicalOrdering = true → needsNeutralization mol = true →
      nAtomsOf cfg orc mol =
        insertionSortPairs ((negMatches mol).map fun i =>
          ((orc.rankMolAtoms mol).getD i 0, i)) ∧
      aAtomsOf cfg orc mol =
        insertionSortPairs ((negAcidMatches mol).map fun i =>
          ((orc.rankMolAtoms mol).getD i 0, i))) ∧
    (cfg.canonicalOrdering = true → needsNeutralization mol = false →
      nAtomsOf cfg orc mol =
        insertionSortPairs ((negMatches mol).map fun i => (i, i)) ∧
      aAtomsOf cfg orc mol =
        insertionSortPairs ((negAcidMatches mol).map fun i => (i, i))) ∧
    (cfg.canonicalOrdering = false →
      nAtomsOf cfg orc mol = (negMatches mol).map (fun i => (i, i)) ∧
      aAtomsOf cfg orc mol = (negAcidMatches mol).map (fun i => (i, i))) ∧
    (cfg.canonicalOrdering = true →
      (nAtomsOf cfg orc mol).Pairwise pairLe ∧
      (aAtomsOf cfg orc mol).Pairwise pairLe) := by
  obtain ⟨co, fo⟩ := cfg
  refine ⟨?_, ?_, ?_, ?_⟩
  · intro hc hn
    simp only [UnchargerCfg.canonicalOrdering] at hc
    subst hc
    constructor
    · simp [nAtomsOf, rankedList, atomRanksOf, hn]
    · simp [aAtomsOf, rankedList, atomRanksOf, hn]
  · intro hc hn
    simp only [UnchargerCfg.canonicalOrdering] at hc
    subst hc
    constructor
    · simp only [nAtomsOf, rankedList, atomRanksOf, hn]
      simp [nAtomsOf, rankedList, atomRanksOf, hn]
      exact congrArg insertionSortPairs
        (map_rank_id mol.atoms.length (negMatches mol)
          (fun i hi => mem_matches_lt mol negPred i hi))
    · simp [aAtomsOf, rankedList, atomRanksOf, hn]
      exact congrArg insertionSortPairs
        (map_rank_id mol.atoms.length (negAcidMatches mol)
          (fun i hi => mem_matches_lt mol negAcidPred i hi))
  · intro hc
    simp only [UnchargerCfg.canonicalOrdering] at hc
    subst hc
    constructor
    · simp [nAtomsOf, rankedList, atomRanksOf]
      intro a ha
      rw [List.getElem?_range (mem_matches_lt mol negPred a ha)]
      rfl
    · simp [aAtomsOf, rankedList, atomRanksOf]
      intro a ha
      rw [List.getElem?_range (mem_matches_lt mol negAcidPred a ha)]
      rfl
  · intro hc
    simp only [UnchargerCfg.canonicalOrdering] at hc
    subst hc
    constructor
    · simp only [nAtomsOf, rankedList]
      simp
      exact insertionSortPairs_pairwise _
    · simp only [aAtomsOf, rankedList]
      simp
      exact insertionSortPairs_pairwise _

/-- Witness for the amended ranking characterization, exercising every
branch: canonical ranks with neutralization needed, identity ranks with
the flag set but neutralization not needed, raw indices with the flag
unset, and sortedness under the flag. -/
theorem ranking_characterized_witness :
    nAtomsOf cfgDefault revRankOracle molQuatAnion =
      insertionSortPairs ((negMatches molQuatAnion).map fun i =>
        ((revRankOracle.rankMolAtoms molQuatAnion).getD i 0, i)) ∧
    nAtomsOf cfgDefault revRankOracle molTwoAnions =
      insertionSortPairs ((negMatches molTwoAnions).map fun i => (i, i)) ∧
    nAtomsOf ⟨false, false⟩ revRankOracle molTwoAnions =
      (negMatches molTwoAnions).map (fun i => (i, i)) ∧
    (nAtomsOf cfgDefault revRankOracle molTwoAnions).Pairwise pairLe :=
  ⟨((ranking_characterized cfgDefault revRankOracle molQuatAnion).1
      rfl (by decide)).1,
   ((ranking_characterized cfgDefault revRankOracle molTwoAnions).2.1
      rfl (by decide)).1,
   ((ranking_characterized ⟨false, false⟩ revRankOracle molTwoAnions).2.2.1
      rfl).1,
   ((ranking_characterized cfgDefault revRankOracle molTwoAnions).2.2.2
      rfl).1⟩

/-! ## The `skipChargeSep` double-counting guard -/

/-- A first positive neighbor is positively charged. -/
theorem firstPosNbr_pos (mol : Mol) (x j : Nat)
    (h : firstPosNbr mol x = some j) : (getAtom mol j).formalCharge > 0 := by
  have := List.find?_some h
  exact of_decide_eq_true this

theorem skipFold_cons_none (mol : Mol) (p : Nat × Nat) (rest : List (Nat × Nat))
    (m0 : List Nat) (h : firstPosNbr mol p.2 = none) :
    skipFold mol (p :: rest) m0 = skipFold mol rest m0 := by
  rw [skipFold, h]

theorem skipFold_cons_some (mol : Mol) (p : Nat × Nat) (rest : List (Nat × Nat))
    (m0 : List Nat) (nbr : Nat) (h : firstPosNbr mol p.2 = some nbr) :
    skipFold mol (p :: rest) m0 =
      if nbr ∈ m0 then skipFold mol rest (p.2 :: m0)
      else skipFold mol rest (nbr :: m0) := by
  rw [skipFold, h]

/-- Marks only accumulate. -/
theorem skipFold_mono (mol : Mol) :
    ∀ (l : List (Nat × Nat)) (m0 : List Nat) (x : Nat), x ∈ m0 →
      x ∈ skipFold mol l m0 := by
  intro l
  induction l with
  | nil => intro m0 x hx; exact hx
  | cons p rest ih =>
    intro m0 x hx
    cases hfp : firstPosNbr mol p.2 with
    | none =>
      rw [skipFold_cons_none mol p rest m0 hfp]
      exact ih m0 x hx
    | some nbr =>
      rw [skipFold_cons_some mol p rest m0 nbr hfp]
      split
      · exact ih _ x (List.mem_cons_of_mem _ hx)
      · exact ih _ x (List.mem_cons_of_mem _ hx)

/-- A negatively charged atom that is not an acid-site atom of the list
and starts unmarked is never marked. -/
theorem skipFold_not_mem (mol : Mol) :
    ∀ (l : List (Nat × Nat)) (m0 : List Nat) (x : Nat),
      (getAtom mol x).formalCharge < 0 → x ∉ m0 → x ∉ l.map Prod.snd →
      x ∉ skipFold mol l m0 := by
  intro l
  induction l with
  | nil => intro m0 x _ hm _ hmem; exact hm hmem
  | cons p rest ih =>
    intro m0 x hneg hm hl
    have hxp : x ≠ p.2 := by
      intro h
      exact hl (by simp [h])
    have hl' : x ∉ rest.map Prod.snd := by
      intro h
      exact hl (by simp [h])
    cases hfp : firstPosNbr mol p.2 with
    | none =>
      rw [skipFold_cons_none mol p rest m0 hfp]
      exact ih m0 x hneg hm hl'
    | some nbr =>
      have hnbr := firstPosNbr_pos mol p.2 nbr hfp
      have hxnbr : x ≠ nbr := by
        intro h
        rw [h] at hneg
        omega
      rw [skipFold_cons_some mol p rest m0 nbr hfp]
      split
      · refine ih _ x hneg ?_ hl'
        intro h
        rcases List.mem_cons.mp h with h' | h'
        · exact hxp h'
        · exact hm h'
      · refine ih _ x hneg ?_ hl'
        intro h
        rcases List.mem_cons.mp h with h' | h'
        · exact hxnbr h'
        · exact hm h'

/-- Whether an acid-site atom ends up marked (skipped): exactly when its
first positive neighbor exists and is either already marked or is the
first positive neighbor of an earlier acid atom of the list. -/
theorem skipFold_skip_iff (mol : Mol) :
    ∀ (l1 : List (Nat × Nat)) (m0 : List Nat) (p : Nat × Nat)
      (l2 : List (Nat × Nat)),
      (∀ q ∈ l1, (getAtom mol q.2).formalCharge < 0) →
      (getAtom mol p.2).formalCharge < 0 →
      (∀ q ∈ l2, (getAtom mol q.2).formalCharge < 0) →
      p.2 ∉ m0 → p.2 ∉ l1.map Prod.snd → p.2 ∉ l2.map Prod.snd →
      (p.2 ∈ skipFold mol (l1 ++ p :: l2) m0 ↔
        ∃ X, firstPosNbr mol p.2 = some X ∧
          (X ∈ m0 ∨ ∃ q ∈ l1, firstPosNbr mol q.2 = some X)) := by
  intro l1
  induction l1 with
  | nil =>
    intro m0 p l2 _ hpneg hl2neg hm0 _ hl2
    rw [List.nil_append]
    cases hfp : firstPosNbr mol p.2 with
    | none =>
      rw [skipFold_cons_none mol p l2 m0 hfp]
      refine iff_of_false (skipFold_not_mem mol l2 m0 p.2 hpneg hm0 hl2) ?_
      rintro ⟨X, hX, -⟩
      cases hX
    | some nbr =>
      have hnbr := firstPosNbr_pos mol p.2 nbr hfp
      rw [skipFold_cons_some mol p l2 m0 nbr hfp]
      by_cases hm : nbr ∈ m0
      · rw [if_pos hm]
        refine iff_of_true (skipFold_mono mol l2 _ p.2 (by simp)) ?_
        exact ⟨nbr, rfl, Or.inl hm⟩
      · rw [if_neg hm]
        refine iff_of_false ?_ ?_
        · refine skipFold_not_mem mol l2 _ p.2 hpneg ?_ hl2
          intro h
          rcases List.mem_cons.mp h with h' | h'
          · rw [h'] at hpneg
            omega
          · exact hm0 h'
        · rintro ⟨X, hX, hcase⟩
          have : X = nbr := Option.some.inj hX.symm
          subst this
          rcases hcase with h' | ⟨q, hq, -⟩
          · exact hm h'
          · cases hq
  | cons r l1' ih =>
    intro m0 p l2 hl1neg hpneg hl2neg hm0 hl1 hl2
    have hrneg : (getAtom mol r.2).formalCharge < 0 :=
      hl1neg r (List.mem_cons_self r l1')
    have hl1neg' : ∀ q ∈ l1', (getAtom mol q.2).formalCharge < 0 :=
      fun q hq => hl1neg q (List.mem_cons_of_mem r hq)
    have hpr : p.2 ≠ r.2 := by
      intro h
      exact hl1 (by simp [h])
    have hl1' : p.2 ∉ l1'.map Prod.snd := by
      intro h
      exact hl1 (by simp [h])
    rw [List.cons_append]
    cases hfr : firstPosNbr mol r.2 with
    | none =>
      rw [skipFold_cons_none mol r _ m0 hfr]
      rw [ih m0 p l2 hl1neg' hpneg hl2neg hm0 hl1' hl2]
      constructor
      · rintro ⟨X, hX, hcase⟩
        refine ⟨X, hX, ?_⟩
        rcases hcase with h' | ⟨q, hq, hqX⟩
        · exact Or.inl h'
        · exact Or.inr ⟨q, List.mem_cons_of_mem _ hq, hqX⟩
      · rintro ⟨X, hX, hcase⟩
        refine ⟨X, hX, ?_⟩
        rcases hcase with h' | ⟨q, hq, hqX⟩
        · exact Or.inl h'
        · rcases List.mem_cons.mp hq with rfl | hq'
          · rw [hfr] at hqX
            cases hqX
          · exact Or.inr ⟨q, hq', hqX⟩
    | some nbrR =>
      have hnbrR := firstPosNbr_pos mol r.2 nbrR hfr
      rw [skipFold_cons_some mol r _ m0 nbrR hfr]
      by_cases hm : nbrR ∈ m0
      · rw [if_pos hm, ih _ p l2 hl1neg' hpneg hl2neg
          (by
            intro h
            rcases List.mem_cons.mp h with h' | h'
            · exact hpr h'
            · exact hm0 h') hl1' hl2]
        constructor
        · rintro ⟨X, hX, hcase⟩
          have hXpos := firstPosNbr_pos mol p.2 X hX
          refine ⟨X, hX, ?_⟩
          rcases hcase with h' | ⟨q, hq, hqX⟩
          · rcases List.mem_cons.mp h' with h'' | h''
            · rw [h''] at hXpos
              exact absurd hXpos (by omega)
            · exact Or.inl h''
          · exact Or.inr ⟨q, List.mem_cons_of_mem _ hq, hqX⟩
        · rintro ⟨X, hX, hcase⟩
          refine ⟨X, hX, ?_⟩
          rcases hcase with h' | ⟨q, hq, hqX⟩
          · exact Or.inl (List.mem_cons_of_mem _ h')
          · rcases List.mem_cons.mp hq with rfl | hq'
            · have : nbrR = X := Option.some.inj (hfr.symm.trans hqX)
              subst this
              exact Or.inl (List.mem_cons_of_mem _ hm)
            · exact Or.inr ⟨q, hq', hqX⟩
      · rw [if_neg hm, ih _ p l2 hl1neg' hpneg hl2neg
          (by
            intro h
            rcases List.mem_cons.mp h with h' | h'
            · rw [h'] at hpneg
              omega
            · exact hm0 h') hl1' hl2]
        constructor
        · rintro ⟨X, hX, hcase⟩
          refine ⟨X, hX, ?_⟩
          rcases hcase with h' | ⟨q, hq, hqX⟩
          · rcases List.mem_cons.mp h' with h'' | h''
            · exact Or.inr ⟨r, List.mem_cons_self r l1', by rw [hfr, h'']⟩
            · exact Or.inl h''
          · exact Or.inr ⟨q, List.mem_cons_of_mem _ hq, hqX⟩
        · rintro ⟨X, hX, hcase⟩
          refine ⟨X, hX, ?_⟩
          rcases hcase with h' | ⟨q, hq, hqX⟩
          · exact Or.inl (List.mem_cons_of_mem _ h')
          · rcases List.mem_cons.mp hq with rfl | hq'
            · have : nbrR = X := Option.some.inj (hfr.symm.trans hqX)
              subst this
              exact Or.inl (List.mem_cons_self _ _)
            · exact Or.inr ⟨q, hq', hqX⟩

/-- Counterexample to the claim: in `molSharedPosNbr` the acid-site atoms
0 and 4 both carry the positively charged atom 3 as a neighbor, atom 0 is
processed first, yet atom 4 is *not* skipped (its first positive neighbor
in iteration order is atom 7, not the shared atom 3), so both acid atoms
are kept in the negative-site processing list. -/
theorem skip_guard_counterexample :
    negAcidMatches molSharedPosNbr = [0, 4] ∧
    (getAtom molSharedPosNbr 3).formalCharge > 0 ∧
    (3 ∈ neighbors molSharedPosNbr 0 ∧ 3 ∈ neighbors molSharedPosNbr 4) ∧
    negAtomsOf cfgDefault testOracle molSharedPosNbr = [(0, 0), (4, 4)] := by
  refine ⟨by decide, by decide, ⟨by decide, by decide⟩, by decide⟩

/-- C8 (amended): an acid-site atom of the `negAcid` match list is
skipped by the double-counting guard exactly when its *first* positively
charged neighbor (in neighbor iteration order) is also the first
positively charged neighbor of an earlier acid atom of the list.  In
particular, for a nitrate-like anion whose two matched oxygens have the
same single positive neighbor, only the first oxygen is kept. -/
theorem acid_skip_guard_characterized (mol : Mol) (l1 l2 : List (Nat × Nat))
    (p : Nat × Nat)
    (hl1neg : ∀ q ∈ l1, (getAtom mol q.2).formalCharge < 0)
    (hpneg : (getAtom mol p.2).formalCharge < 0)
    (hl2neg : ∀ q ∈ l2, (getAtom mol q.2).formalCharge < 0)
    (hl1 : p.2 ∉ l1.map Prod.snd) (hl2 : p.2 ∉ l2.map Prod.snd) :
    p.2 ∈ skipFold mol (l1 ++ p :: l2) [] ↔
      ∃ X, firstPosNbr mol p.2 = some X ∧
        ∃ q ∈ l1, firstPosNbr mol q.2 = some X := by
  rw [skipFold_skip_iff mol l1 [] p l2 hl1neg hpneg hl2neg (by simp) hl1 hl2]
  constructor
  · rintro ⟨X, hX, hcase⟩
    rcases hcase with h | h
    · cases h
    · exact ⟨X, hX, h⟩
  · rintro ⟨X, hX, h⟩
    exact ⟨X, hX, Or.inr h⟩

/-- Witness: on the nitrate-like anion the second matched oxygen (atom 3)
is skipped, because its first positive neighbor (atom 1) was already
claimed by the first matched oxygen (atom 0). -/
theorem acid_skip_guard_witness :
    (3 : Nat) ∈ skipFold molNitrate [(0, 0), (3, 3)] [] :=
  (acid_skip_guard_characterized molNitrate [(0, 0)] [] (3, 3)
    (by decide) (by decide) (by decide) (by decide) (by decide)).mpr
    ⟨1, by decide, (0, 0), by decide, by decide⟩

/-! ## Idempotence of `unchargeInPlace` -/

/-- Counterexample to the idempotence claim: in `molExposedCation` the
carboxylate-like oxygen (atom 0) is bonded to the cation (atom 3).  The
first run neutralizes the oxygen via the `negAcid` path, which removes
the cation's only anionic neighbor; the cation, excluded from the
`pos_h` matches of the first run, matches in the second run, and the
second run removes its charge — the second run is not a no-op. -/
theorem uncharge_not_idempotent :
    unchargeInPlace cfgDefault testOracle
        (unchargeInPlace cfgDefault testOracle molExposedCation) ≠
      unchargeInPlace cfgDefault testOracle molExposedCation := by
  decide

/-- A molecule with no `pos_h`, `neg` or `negAcid` match is a fixed point
of `unchargeInPlace`: the negative-site list is empty and the positive
pass has no candidates. -/
theorem uncharge_no_sites_fixpoint (cfg : UnchargerCfg) (orc : Oracle)
    (mol : Mol) (hp : posHMatches mol = []) (hn : negMatches mol = [])
    (ha : negAcidMatches mol = []) :
    unchargeInPlace cfg orc mol = mol := by
  have hnA : nAtomsOf cfg orc mol = [] := by
    unfold nAtomsOf rankedList
    rw [hn]
    simp [insertionSortPairs]
  have haA : aAtomsOf cfg orc mol = [] := by
    unfold aAtomsOf rankedList
    rw [ha]
    simp [insertionSortPairs]
  have hneg : negAtomsOf cfg orc mol = [] := by
    unfold negAtomsOf
    rw [hnA, haA]
    simp
  unfold unchargeInPlace
  rw [hp, hneg]
  simp only [negPass, negLoop, posPass, ite_self]

/-- C2 (amended): `unchargeInPlace` is idempotent whenever the
once-processed molecule admits no further `pos_h`, `neg` or `negAcid`
match — the second run then performs no mutation.  (In general a second
run can mutate further: neutralizing an acid anion in the first run may
expose a new cation match, as `molExposedCation` shows.) -/
theorem uncharge_idempotent_when_no_new_sites (cfg : UnchargerCfg)
    (orc : Oracle) (mol : Mol)
    (hp : posHMatches (unchargeInPlace cfg orc mol) = [])
    (hn : negMatches (unchargeInPlace cfg orc mol) = [])
    (ha : negAcidMatches (unchargeInPlace cfg orc mol) = []) :
    unchargeInPlace cfg orc (unchargeInPlace cfg orc mol) =
      unchargeInPlace cfg orc mol :=
  uncharge_no_sites_fixpoint cfg orc _ hp hn ha

/-- Witness: on the single neutral carbon no pattern matches after the
first run, so the second run is a no-op. -/
theorem uncharge_idempotent_witness :
    unchargeInPlace cfgDefault testOracle
        (unchargeInPlace cfgDefault testOracle molNeutralC) =
      unchargeInPlace cfgDefault testOracle molNeutralC :=
  uncharge_idempotent_when_no_new_sites cfgDefault testOracle molNeutralC
    (by decide) (by decide) (by decide)

end ChargeModel
